import Mathlib

/-!
# Verification of the kb-ai client-side Q&A engine

A shallow embedding of the core of `script.js` (the "kb-ai" retrieval-augmented
Q&A engine): text normalization, chunking, vector retrieval, citation parsing,
the `ask` pre-condition logic, and JSON import/export.

Modelling conventions:
* JS strings are modelled as `List Char` (`Str`).
* JS numbers used as scores/embeddings are modelled exactly as rationals (`ℚ`);
  the verified properties (ordering, counts, stability) are number-representation
  independent.
* `Array.prototype.sort` is stable (ES2019); it is modelled by stable insertion
  sort (`List.insertionSort`), whose result is the unique stable descending
  ordering produced by the comparator `(x, y) => y.score - x.score`.
* Loops whose termination is not structural are realized with an explicit fuel
  parameter; adequacy of the fuel used by the wrapper is proved separately.
* External collaborators (embedding model, LLM runtime, DOM) are oracles passed
  as parameters; `ask` additionally returns the ordered list of observable
  effects it performs (alerts, transcript appends, model invocations).
-/

namespace KB

/-- JS strings, modelled as lists of characters. -/
abbrev Str := List Char

/-! ## JS whitespace and `String.prototype.trim` -/

/-- The characters treated as whitespace by JS `trim` (WhiteSpace ∪ LineTerminator). -/
def jsWSChars : Str :=
  [' ', '\t', '\n', '\x0d', '\x0b', '\x0c',
   Char.ofNat 0xa0, Char.ofNat 0x1680,
   Char.ofNat 0x2000, Char.ofNat 0x2001, Char.ofNat 0x2002, Char.ofNat 0x2003,
   Char.ofNat 0x2004, Char.ofNat 0x2005, Char.ofNat 0x2006, Char.ofNat 0x2007,
   Char.ofNat 0x2008, Char.ofNat 0x2009, Char.ofNat 0x200a,
   Char.ofNat 0x2028, Char.ofNat 0x2029,
   Char.ofNat 0x202f, Char.ofNat 0x205f, Char.ofNat 0x3000, Char.ofNat 0xfeff]

/-- Whether a character is JS whitespace. -/
def jsWS (c : Char) : Bool := jsWSChars.contains c

/-- JS `String.prototype.trim`: remove whitespace from both ends. -/
def jsTrim (l : Str) : Str :=
  ((l.dropWhile jsWS).reverse.dropWhile jsWS).reverse

/-! ## Substring search (used to state the citation and newline-run facts) -/

/-- `beginsWith p l` : `p` is a prefix of `l`. -/
def beginsWith : Str → Str → Bool
  | [], _ => true
  | _ :: _, [] => false
  | p :: ps, c :: cs => p == c && beginsWith ps cs

/-- `hasSeg p l` : `p` occurs as a contiguous segment (substring) of `l`. -/
def hasSeg (pat : Str) : Str → Bool
  | [] => beginsWith pat []
  | c :: cs => beginsWith pat (c :: cs) || hasSeg pat cs

theorem beginsWith_iff (p : Str) : ∀ l : Str, beginsWith p l = true ↔ ∃ t, l = p ++ t := by
  induction p with
  | nil => intro l; simp [beginsWith]
  | cons a ps ih =>
    intro l
    cases l with
    | nil => simp [beginsWith]
    | cons c cs =>
      simp only [beginsWith, Bool.and_eq_true, beq_iff_eq, ih cs]
      constructor
      · rintro ⟨rfl, t, rfl⟩; exact ⟨t, rfl⟩
      · rintro ⟨t, h⟩
        injection h with h1 h2
        exact ⟨h1.symm, t, h2⟩

theorem hasSeg_iff (p : Str) : ∀ l : Str, hasSeg p l = true ↔ ∃ a b, l = a ++ (p ++ b) := by
  intro l
  induction l with
  | nil =>
    simp only [hasSeg, beginsWith_iff]
    constructor
    · rintro ⟨t, h⟩; exact ⟨[], t, h⟩
    · rintro ⟨a, b, h⟩
      rcases a with _ | ⟨c, a⟩
      · exact ⟨b, h⟩
      · simp at h
  | cons c cs ih =>
    simp only [hasSeg, Bool.or_eq_true, beginsWith_iff, ih]
    constructor
    · rintro (⟨t, h⟩ | ⟨a, b, h⟩)
      · exact ⟨[], t, h⟩
      · exact ⟨c :: a, b, by simp [h]⟩
    · rintro ⟨a, b, h⟩
      rcases a with _ | ⟨d, a⟩
      · exact Or.inl ⟨b, h⟩
      · injection h with h1 h2
        exact Or.inr ⟨a, b, h2⟩

/-- A segment of a sublist (given by an explicit decomposition) is a segment of the whole. -/
theorem hasSeg_false_of_decomp {p l m : Str} (h : hasSeg p l = false)
    (a b : Str) (hd : l = a ++ (m ++ b)) : hasSeg p m = false := by
  by_contra hm
  rw [Bool.not_eq_false, hasSeg_iff] at hm
  obtain ⟨x, y, rfl⟩ := hm
  rw [Bool.eq_false_iff] at h
  apply h
  rw [hasSeg_iff]
  exact ⟨a ++ x, y ++ b, by simp [hd]⟩

/-! ## `normalizeText` (script.js lines 79–86)

```js
function normalizeText(t) {
  return (t ?? "")
    .replace(/\u0000/g, " ")
    .replace(/[ \t]+/g, " ")
    .replace(/\r\n/g, "\n")
    .replace(/\n{3,}/g, "\n\n")
    .trim();
}
```
-/

/-- `.replace(/\u0000/g, " ")`. -/
def replaceNul : Str → Str :=
  List.map fun c => if c = '\x00' then ' ' else c

/-- Space or tab (the class `[ \t]`). -/
def isST (c : Char) : Bool := c == ' ' || c == '\t'

/-- `.replace(/[ \t]+/g, " ")`: each maximal run of spaces/tabs becomes one space.
The `Bool` state records whether we are inside a run that already emitted its space. -/
def collapseSTAux : Bool → Str → Str
  | _, [] => []
  | inRun, c :: cs =>
    if isST c then
      (if inRun then collapseSTAux true cs else ' ' :: collapseSTAux true cs)
    else c :: collapseSTAux false cs

def collapseST (l : Str) : Str := collapseSTAux false l

/-- `.replace(/\r\n/g, "\n")`: leftmost, non-overlapping replacement of CRLF pairs. -/
def replaceCRLF : Str → Str
  | [] => []
  | [c] => [c]
  | c :: d :: cs =>
    if c = '\x0d' ∧ d = '\n' then '\n' :: replaceCRLF cs
    else c :: replaceCRLF (d :: cs)

/-- `.replace(/\n{3,}/g, "\n\n")`: each maximal run of 3 or more newlines becomes two.
The `Nat` state counts the newlines of the current run already seen (emit the first two). -/
def collapseNLAux : Nat → Str → Str
  | _, [] => []
  | run, c :: cs =>
    if c = '\n' then
      (if run < 2 then '\n' :: collapseNLAux (run + 1) cs else collapseNLAux (run + 1) cs)
    else c :: collapseNLAux 0 cs

def collapseNL3 (l : Str) : Str := collapseNLAux 0 l

/-- `normalizeText` from the source, on `List Char`. -/
def normalizeText (l : Str) : Str :=
  jsTrim (collapseNL3 (replaceCRLF (collapseST (replaceNul l))))

/-! ## `chunkText` (script.js lines 88–103)

```js
function chunkText(text, chunkSize = CHUNK_CHARS, overlap = CHUNK_OVERLAP) {
  const t = normalizeText(text);
  if (!t) return [];
  const out = [];
  let start = 0;
  while (start < t.length) {
    const end = Math.min(t.length, start + chunkSize);
    const piece = t.slice(start, end).trim();
    if (piece.length >= 30) out.push(piece);
    if (end >= t.length) break;
    start = Math.max(0, end - overlap);
  }
  return out;
}
```
-/

/-- `CHUNK_CHARS` from the source. -/
def CHUNK_CHARS : Nat := 1200

/-- `CHUNK_OVERLAP` from the source. -/
def CHUNK_OVERLAP : Nat := 200

/-- `TOP_K` from the source. -/
def TOP_K : Nat := 6

/-- JS `String.prototype.slice(s, e)` for `0 ≤ s ≤ e`. -/
def jsSlice (l : Str) (s e : Nat) : Str := (l.drop s).take (e - s)

/-- The `while` loop of `chunkText`, with explicit fuel (`none` = fuel exhausted;
`chunkLoopF_isSome` below shows `t.length + 1` fuel always suffices when
`overlap < size`).  Natural subtraction `e - overlap` realizes
`Math.max(0, end - overlap)`. -/
def chunkLoopF (size overlap : Nat) (t : Str) : Nat → Nat → Option (List Str)
  | 0, _ => none
  | fuel + 1, start =>
    if start < t.length then
      if t.length ≤ min t.length (start + size) then
        some
          (if 30 ≤ (jsTrim (jsSlice t start (min t.length (start + size)))).length then
            [jsTrim (jsSlice t start (min t.length (start + size)))]
          else [])
      else
        match chunkLoopF size overlap t fuel (min t.length (start + size) - overlap) with
        | none => none
        | some rest =>
          some
            (if 30 ≤ (jsTrim (jsSlice t start (min t.length (start + size)))).length then
              jsTrim (jsSlice t start (min t.length (start + size))) :: rest
            else rest)
    else some []

/-- `chunkText` from the source. -/
def chunkText (text : Str) (size overlap : Nat) : List Str :=
  let t := normalizeText text
  if t = [] then []
  else (chunkLoopF size overlap t (t.length + 1) 0).getD []

/-- `chunkText` with the default parameters, as used by the indexing pipeline. -/
def chunkTextDefault (text : Str) : List Str := chunkText text CHUNK_CHARS CHUNK_OVERLAP

/-- Modelled from the spec's words (§4.2 of the spec), for comparison with
`chunkText`: the sequence of window spans `[start_k, end_k)` with
`end_k = min(length, start_k + size)` and `start_{k+1} = end_k − overlap`,
stopping once `end_k ≥ length`.  The fuel parameter only realizes the
recursion; `len + 1` is always sufficient (see `specWindows_eq` lemmas). -/
def specWindowsAux (size overlap len : Nat) : Nat → Nat → List (Nat × Nat)
  | 0, _ => []
  | fuel + 1, start =>
    if start < len then
      (start, min len (start + size)) ::
        (if min len (start + size) < len then
          specWindowsAux size overlap len fuel (min len (start + size) - overlap)
        else [])
    else []

/-- The spec-described windows for the default parameters. -/
def specWindows (len : Nat) : List (Nat × Nat) :=
  specWindowsAux CHUNK_CHARS CHUNK_OVERLAP len (len + 1) 0

/-! ## Embeddings, `dot`, `topKByScore`, `retrieveTopChunks`
(script.js lines 105–117 and 437–445) -/

/-- A chunk record: `{ id, docId, docName, page, text, embedding }`.
`embedding = none` models `null`/absent. -/
structure Chunk where
  id : Str
  docId : Str
  docName : Str
  page : Nat
  text : Str
  embedding : Option (List ℚ)
deriving DecidableEq

/-- `dot(a, b)`: sum of products over the common length (the JS loop runs to
`Math.min(a.length, b.length)`). -/
def dot (a b : List ℚ) : ℚ := (List.zipWith (· * ·) a b).sum

/-- A scored retrieval candidate `{ score, ch }`. -/
structure Scored where
  score : ℚ
  ch : Chunk
deriving DecidableEq

/-- The ordering used by `items.sort((x, y) => y.score - x.score)`:
`a` comes before `b` when `a.score ≥ b.score`. -/
def rScore (a b : Scored) : Prop := b.score ≤ a.score

instance : DecidableRel rScore := fun a b => inferInstanceAs (Decidable (b.score ≤ a.score))

instance : IsTotal Scored rScore := ⟨fun a b => le_total b.score a.score⟩

instance : IsTrans Scored rScore := ⟨fun _ _ _ hab hbc => le_trans hbc hab⟩

/-- `topKByScore(items, k)`: stable sort by score descending, then take `k`
(`Array.prototype.sort` is stable per ES2019, and `slice(0, k)` is `take k`). -/
def topKByScore (items : List Scored) (k : Nat) : List Scored :=
  (List.insertionSort rScore items).take k

/-- The scored list built by the loop in `retrieveTopChunks`: chunks whose
embedding is absent are skipped (`if (!ch.embedding) continue`). -/
def scoredChunks (q : List ℚ) (chunks : List Chunk) : List Scored :=
  chunks.filterMap fun ch => ch.embedding.map fun e => ⟨dot q e, ch⟩

/-- `retrieveTopChunks(queryEmbedding)` over a given in-memory chunk list. -/
def retrieveTopChunks (q : List ℚ) (chunks : List Chunk) : List Scored :=
  topKByScore (scoredChunks q chunks) TOP_K

/-! ## Citation parsing (script.js lines 456–464)

```js
function parseUsedCitations(answerText) {
  const used = new Set();
  const re = /\[C(\d+)\]/g;
  let m;
  while ((m = re.exec(answerText)) !== null) {
    used.add(Number(m[1]));
  }
  return used;
}
```

Two occurrences of the pattern `[C<digits>]` can never overlap (the pattern
contains `[` only at its first position), so the regex's leftmost,
match-consuming scan finds exactly the matches found by sliding a window one
character at a time; the scanner below does the latter.
-/

/-- Numeric value of a digit string (the `Number(m[1])` conversion). -/
def digitsVal (ds : Str) : Nat := ds.foldl (fun a c => a * 10 + (c.toNat - 48)) 0

/-- Try to match `\[C(\d+)\]` at the head of the string, returning the captured
value (the regex `\d+` is greedy and is followed by a literal `]`, so the
captured group is the maximal digit run after `[C`, provided a `]` follows). -/
def citeHit : Str → Option Nat
  | c :: d :: rest =>
    if c = '[' ∧ d = 'C' then
      if rest.takeWhile Char.isDigit ≠ [] ∧
          (rest.dropWhile Char.isDigit).head? = some ']' then
        some (digitsVal (rest.takeWhile Char.isDigit))
      else none
    else none
  | _ => none

/-- All values captured by `/\[C(\d+)\]/g` over the string. -/
def parseCitationsScan : Str → List Nat
  | [] => []
  | c :: cs => (citeHit (c :: cs)).toList ++ parseCitationsScan cs

/-- `parseUsedCitations` returns a `Set`; modelled as a `Finset`. -/
def parseUsedCitations (l : Str) : Finset Nat := (parseCitationsScan l).toFinset

/-! ## Data model: documents, application state -/

/-- A document record: `{ id, name, type, size, addedAt }`. -/
structure Doc where
  id : Str
  name : Str
  type : Str
  size : Nat
  addedAt : Str
deriving DecidableEq

/-- Chat message roles. -/
inductive Role
  | user
  | assistant
deriving DecidableEq

/-- A transcript message (role and bubble text). -/
abbrev Msg := Role × Str

/-- The mutable `state` of the app (the parts the verified operations touch),
plus the IndexedDB stores (`docs` and `chunks` object stores). -/
structure AppState where
  docs : List Doc
  chunks : List Chunk
  storeDocs : List Doc
  storeChunks : List Chunk
  engineLoaded : Bool
  transcript : List Msg
deriving DecidableEq

/-! ## The `ask` QA pipeline (script.js lines 499–596)

`ask` is modelled as a pure function of the state and of two oracles (the
embedding model applied to the question, and the LLM producing the final
streamed answer from the prompts).  It returns the new state and the ordered
list of observable effects it performed.
-/

/-- Observable effects of `ask`, in program order. -/
inductive Effect
  | alertNoCorpus       -- alert("먼저 근거자료를 업로드해서 인덱싱해 주세요.")
  | alertNoEngine       -- alert("먼저 로컬 LLM(WebLLM) 모델을 로드해 주세요.")
  | ensureEmbed         -- await ensureEmbedder()
  | appendUserMsg       -- addMessage("user", questionText)
  | appendAssistantMsg  -- addMessage("assistant", placeholder)
  | embedCall           -- await embedTexts([questionText])
  | genCall             -- await state.engine.chat.completions.create(...)
  | warnNoCitations     -- strict-mode warning when no [C#] citation was parsed
  | showContextPanel    -- renderContextDetails(top, used)
deriving DecidableEq

/-- The external collaborators consumed by `ask`. -/
structure AskEnv where
  embedQ : Str → List ℚ
  generate : Str → Str → Str

/-- `buildSystemPrompt(strict)` (lines 304–322). -/
def buildSystemPrompt (strict : Bool) : Str :=
  if strict then
    (String.intercalate "\n"
      ["너는 '근거 자료'로 제공된 내용만 사용해서 답하는 어시스턴트다.",
       "규칙:",
       "1) 근거에 없는 정보는 절대 추측하거나 일반상식으로 보완하지 말 것.",
       "2) 근거에서 확인되지 않으면 정확히 다음 문장만 출력: 자료에 근거가 없습니다.",
       "3) 답변 마지막에 [출처] 섹션을 만들고, 사용한 근거 ID를 [C1], [C2] 형태로 나열할 것.",
       "4) 답변은 한국어로."]).data
  else
    (String.intercalate "\n"
      ["너는 '근거 자료'로 제공된 내용만 사용해서 답하는 어시스턴트다.",
       "근거에 없는 내용은 '자료에 근거가 없습니다'라고 말하고, 가능한 범위만 요약해라.",
       "답변 마지막에 [출처] 섹션으로 사용한 근거 ID([C#])를 적어라.",
       "답변은 한국어로."]).data

/-- `buildContext(scoredChunks)` (lines 447–454): numbered evidence blocks
joined by blank lines. -/
def buildContext (scored : List Scored) : Str :=
  List.intercalate ('\n' :: '\n' :: []) <|
    scored.enum.map fun it =>
      '[' :: 'C' :: (Nat.repr (it.1 + 1)).data ++ (']' :: ' ' :: '(' :: []) ++
        it.2.ch.docName ++ (' ' :: '/' :: ' ' :: 'p' :: '.' :: []) ++
        (Nat.repr it.2.ch.page).data ++ (')' :: '\n' :: []) ++ it.2.ch.text

/-- The fixed user-prompt template of `ask` (lines 531–543). -/
def buildUserPrompt (context question : Str) : Str :=
  List.intercalate ('\n' :: []) <|
    ["아래 [근거] 안에서만 정보를 찾아 질문에 답해라.".data,
     [], "[근거]".data, context,
     [], "[질문]".data, question,
     [], "형식:".data,
     "- 답변 마지막에 [출처] 섹션을 만들고, 사용한 근거 ID를 [C1], [C2]처럼 적어라.".data,
     "- 근거가 없으면 strict 모드에 따라 처리해라.".data]

/-- `ask(questionText, strict, showContext)`.  Returns the new state and the
ordered effect list.  The three early returns mirror the source exactly:
empty-after-trim question → silent no-op; `state.chunks.length === 0` →
`NoCorpus` alert; no engine → `GeneratorNotReady` alert. -/
def ask (env : AskEnv) (q : Str) (strict showContext : Bool) (st : AppState) :
    AppState × List Effect :=
  if jsTrim q = [] then (st, [])
  else if st.chunks = [] then (st, [Effect.alertNoCorpus])
  else if st.engineLoaded = false then (st, [Effect.alertNoEngine])
  else
    let qv := env.embedQ q
    let top := retrieveTopChunks qv st.chunks
    let ctx := buildContext top
    let sys := buildSystemPrompt strict
    let usr := buildUserPrompt ctx q
    let answer := env.generate sys usr
    let used := parseUsedCitations answer
    ({ st with transcript := st.transcript ++ [(Role.user, q), (Role.assistant, answer)] },
     [Effect.ensureEmbed, Effect.appendUserMsg, Effect.appendAssistantMsg,
      Effect.embedCall, Effect.genCall] ++
       (if strict = true ∧ used = ∅ then [Effect.warnNoCitations] else []) ++
       (if showContext then [Effect.showContextPanel] else []))

/-! ## Export / import (script.js lines 653–696) -/

/-- An exported chunk: the embedding is stripped, the five data fields kept. -/
structure ExpChunk where
  id : Str
  docId : Str
  docName : Str
  page : Nat
  text : Str
deriving DecidableEq

/-- The export payload `{ version: 1, exportedAt, docs, chunks }`. -/
structure Payload where
  version : Nat
  exportedAt : Str
  docs : List Doc
  chunks : List ExpChunk
deriving DecidableEq

/-- A parsed import file: any of the expected fields may be absent.
`docs`/`chunks`, when present, are arrays (`!data?.docs` is false exactly for a
present array, since JS arrays — even empty ones — are truthy). -/
structure RawPayload where
  version : Option Int
  exportedAt : Option Str
  docs : Option (List Doc)
  chunks : Option (List ExpChunk)
deriving DecidableEq

/-- Import failure kinds. -/
inductive ImportError
  | formatError   -- alert("형식이 올바르지 않은 JSON입니다.")
deriving DecidableEq

/-- `chunks.map(c => ({id, docId, docName, page, text}))` in `exportJSON`. -/
def stripEmbedding (c : Chunk) : ExpChunk := ⟨c.id, c.docId, c.docName, c.page, c.text⟩

/-- `data.chunks.map(x => ({ ...x, embedding: null }))` in `importJSON`. -/
def withNullEmbedding (e : ExpChunk) : Chunk := ⟨e.id, e.docId, e.docName, e.page, e.text, none⟩

/-- `exportJSON()`; the timestamp is an external input. -/
def exportJSON (now : Str) (st : AppState) : Payload :=
  ⟨1, now, st.docs, st.chunks.map stripEmbedding⟩

/-- Re-reading an export file: every field is present. -/
def payloadToRaw (p : Payload) : RawPayload :=
  ⟨some (Int.ofNat p.version), some p.exportedAt, some p.docs, some p.chunks⟩

/-- IndexedDB `store.put(obj)`: replace the record with the same key, else append. -/
def putOne (key : α → Str) (store : List α) (x : α) : List α :=
  if store.any fun y => decide (key y = key x) then
    store.map fun y => if key y = key x then x else y
  else store ++ [x]

/-- `dbPutMany(storeName, objects)`. -/
def putMany (key : α → Str) (store : List α) (xs : List α) : List α :=
  xs.foldl (putOne key) store

/-- `importJSON(file)`, after `JSON.parse`: if either array is missing the
operation alerts and returns before touching anything; otherwise it clears the
stores and the chat, replaces the in-memory state, and writes the imported
records (embeddings `null`) back to the stores. -/
def importJSON (raw : RawPayload) (st : AppState) : Option ImportError × AppState :=
  match raw.docs, raw.chunks with
  | some ds, some cs =>
    let rcs := cs.map withNullEmbedding
    (none,
     { st with
        docs := ds
        chunks := rcs
        storeDocs := putMany Doc.id [] ds
        storeChunks := putMany Chunk.id [] rcs
        transcript := [] })
  | _, _ => (some ImportError.formatError, st)

/-! ## Concrete fixtures used by witnesses and counterexamples -/

/-- An empty app state. -/
def emptySt : AppState := ⟨[], [], [], [], false, []⟩

/-- An app state whose single chunk has no embedding (the situation right after
an import, before re-indexing), with the generator loaded. -/
def importedSt : AppState :=
  ⟨[⟨['d'], ['f'], ['t'], 3, ['x']⟩],
   [⟨['c'], ['d'], ['f'], 1, "some imported text".data, none⟩],
   [], [], true, []⟩

/-- Oracles returning fixed values (their outputs are irrelevant to the claims
they are used for). -/
def trivEnv : AskEnv := ⟨fun _ => [], fun _ _ => []⟩

/-! # Claim theorems -/

/-! ## C5: export → import round-trip -/

/-- C5: for every in-memory state, exporting and importing the produced payload
yields the docs preserved identically and the chunks preserved identically on
`id`, `docId`, `docName`, `page` and `text`, with the `embedding` field absent
on every chunk after the import. -/
theorem export_import_roundtrip (now : Str) (st st' : AppState) :
    (importJSON (payloadToRaw (exportJSON now st)) st').1 = none ∧
    (importJSON (payloadToRaw (exportJSON now st)) st').2.docs = st.docs ∧
    (importJSON (payloadToRaw (exportJSON now st)) st').2.chunks =
      st.chunks.map fun c => { c with embedding := none } := by
  refine ⟨rfl, rfl, ?_⟩
  simp only [importJSON, payloadToRaw, exportJSON, List.map_map]
  rfl

/-! ## C7: import with a missing array fails before touching anything -/

/-- C7: for every import payload lacking the `docs` array or lacking the
`chunks` array, import fails with `ImportFormatError` and returns before
clearing the store: the persistent store and the in-memory state are unchanged. -/
theorem import_missing_arrays (raw : RawPayload) (st : AppState)
    (h : raw.docs = none ∨ raw.chunks = none) :
    importJSON raw st = (some ImportError.formatError, st) := by
  rcases raw with ⟨v, e, d, c⟩
  rcases h with h | h <;> simp only at h <;> subst h
  · cases c <;> rfl
  · cases d <;> rfl

/-- Witness for C7 at a concrete payload (docs array absent). -/
theorem import_missing_arrays_witness :
    ((⟨some 1, some [], none, some []⟩ : RawPayload).docs = none ∨
       (⟨some 1, some [], none, some []⟩ : RawPayload).chunks = none) ∧
    importJSON ⟨some 1, some [], none, some []⟩ emptySt =
      (some ImportError.formatError, emptySt) :=
  ⟨Or.inl rfl, import_missing_arrays _ emptySt (Or.inl rfl)⟩

/-! ## C8: the version field is not checked -/

/-- Counterexample to C8 as stated: a payload whose `version` is `2` (an
"unknown version value") with both arrays present is accepted by the import —
the code never examines `version`, so "every payload with an unknown version
value fails" is false. -/
theorem import_version2_accepted :
    (importJSON ⟨some 2, some [], some [], some []⟩ emptySt).1 = none ∧
    (⟨some 2, some [], some [], some []⟩ : RawPayload).version ≠ some 1 := by
  exact ⟨rfl, by decide⟩

/-- C8 (amended): import accepts exactly the payloads that carry both the
`docs` and the `chunks` arrays; the `version` field is not examined, so
payloads with any version value succeed whenever both arrays are present. -/
theorem import_accepts_iff (raw : RawPayload) (st : AppState) :
    (importJSON raw st).1 = none ↔ raw.docs ≠ none ∧ raw.chunks ≠ none := by
  rcases raw with ⟨v, e, d, c⟩
  cases d <;> cases c <;> simp [importJSON]

/-! ## C10: a blank question is a silent no-op -/

/-- C10: calling `ask` with a question that is empty or whitespace-only returns
immediately: no effect is performed (in particular the embedder and generator
are not invoked and no message is appended) and the state is unchanged. -/
theorem ask_blank_question_noop (env : AskEnv) (q : Str) (strict showCtx : Bool)
    (st : AppState) (hq : jsTrim q = []) :
    ask env q strict showCtx st = (st, []) := by
  unfold ask
  rw [if_pos hq]

/-- Witness for C10 at a whitespace-only question. -/
theorem ask_blank_question_noop_witness :
    jsTrim "  ".data = [] ∧
    ask trivEnv "  ".data true true importedSt = (importedSt, []) :=
  ⟨by decide, ask_blank_question_noop trivEnv _ true true importedSt (by decide)⟩

/-! ## C1: the `NoCorpus` pre-condition -/

/-- Counterexample to C1 as stated: in a state where chunks exist but none has
an embedding (exactly the situation after an import and before re-indexing),
`ask` does **not** fail with `NoCorpus` — no `NoCorpus` alert is raised and the
pipeline proceeds, appending messages to the transcript.  The code guards on
`state.chunks.length === 0`, not on the existence of an embedded chunk. -/
theorem ask_embeddingless_not_noCorpus :
    (∀ c ∈ importedSt.chunks, c.embedding = none) ∧
    Effect.alertNoCorpus ∉ (ask trivEnv "hi".data true false importedSt).2 ∧
    (ask trivEnv "hi".data true false importedSt).1.transcript ≠
      importedSt.transcript := by
  refine ⟨by decide, ?_, ?_⟩ <;> decide

/-- C1 (amended): `ask` fails with `NoCorpus` exactly when the in-memory chunk
list is empty (regardless of embeddings): with a question that is nonempty
after trimming and an empty chunk list, the only effect is the `NoCorpus`
alert and the state — in particular the transcript — is unchanged. -/
theorem ask_noCorpus_iff_empty_chunks (env : AskEnv) (q : Str)
    (strict showCtx : Bool) (st : AppState)
    (hq : jsTrim q ≠ []) (hc : st.chunks = []) :
    ask env q strict showCtx st = (st, [Effect.alertNoCorpus]) := by
  unfold ask
  rw [if_neg hq, if_pos hc]

/-- Witness for the amended C1 at a concrete state with no chunks at all. -/
theorem ask_noCorpus_witness :
    jsTrim "question".data ≠ [] ∧ emptySt.chunks = [] ∧
    ask trivEnv "question".data false false emptySt =
      (emptySt, [Effect.alertNoCorpus]) :=
  ⟨by decide, rfl,
    ask_noCorpus_iff_empty_chunks trivEnv _ false false emptySt (by decide) rfl⟩

/-! ## C9: termination of the chunking loop -/

/-- C9: whenever `overlap < size` (in particular for the defaults 1200/200),
the `chunkText` window loop terminates: running it with fuel exceeding
`t.length - start` never exhausts the fuel, i.e. the loop reaches a window
whose end is at or past the end of the text after finitely many steps.
(`chunkText` runs the loop from `start = 0` with fuel `t.length + 1`.) -/
theorem chunkLoopF_isSome (size overlap : Nat) (t : Str) (h : overlap < size) :
    ∀ fuel start, t.length - start < fuel → (chunkLoopF size overlap t fuel start).isSome := by
  intro fuel
  induction fuel with
  | zero => intro start hs; omega
  | succ fuel ih =>
    intro start hs
    rw [chunkLoopF]
    by_cases h1 : start < t.length
    · rw [if_pos h1]
      by_cases h2 : t.length ≤ min t.length (start + size)
      · rw [if_pos h2]; rfl
      · rw [if_neg h2]
        have hrec := ih (min t.length (start + size) - overlap) (by omega)
        rcases hr : chunkLoopF size overlap t fuel (min t.length (start + size) - overlap) with
          _ | rest
        · rw [hr] at hrec; simp at hrec
        · simp only [hr]; rfl
    · rw [if_neg h1]; rfl

/-- Witness for C9: with the default parameters, the loop on a concrete text
completes (the fuel used by `chunkText` is not exhausted). -/
theorem chunkLoopF_isSome_witness :
    CHUNK_OVERLAP < CHUNK_CHARS ∧
    ("hello world".data.length - 0 < "hello world".data.length + 1) ∧
    (chunkLoopF CHUNK_CHARS CHUNK_OVERLAP "hello world".data
      ("hello world".data.length + 1) 0).isSome :=
  ⟨by decide, by decide,
    chunkLoopF_isSome CHUNK_CHARS CHUNK_OVERLAP _ (by decide) _ 0 (by decide)⟩

/-! ## C3: the chunk windows -/

/-- The loop of `chunkText` emits exactly the trimmed spec windows of length
≥ 30 (given adequate fuel, with the same fuel on both sides). -/
theorem chunkLoopF_eq_specWindows (size overlap : Nat) (t : Str) (h : overlap < size) :
    ∀ fuel start, t.length - start < fuel →
      chunkLoopF size overlap t fuel start =
        some (((specWindowsAux size overlap t.length fuel start).map
                 fun w => jsTrim (jsSlice t w.1 w.2)).filter
                   fun p => decide (30 ≤ p.length)) := by
  intro fuel
  induction fuel with
  | zero => intro start hs; omega
  | succ fuel ih =>
    intro start hs
    rw [chunkLoopF, specWindowsAux]
    by_cases h1 : start < t.length
    · rw [if_pos h1, if_pos h1]
      by_cases h2 : t.length ≤ min t.length (start + size)
      · rw [if_pos h2,
          if_neg (show ¬ min t.length (start + size) < t.length by omega)]
        simp only [List.map_cons, List.map_nil, List.filter_cons, List.filter_nil]
        by_cases hk : 30 ≤ (jsTrim (jsSlice t start (min t.length (start + size)))).length
        · simp [hk]
        · simp [hk]
      · rw [if_neg h2,
          if_pos (show min t.length (start + size) < t.length by omega),
          ih (min t.length (start + size) - overlap) (by omega)]
        simp only [List.map_cons, List.filter_cons]
        by_cases hk : 30 ≤ (jsTrim (jsSlice t start (min t.length (start + size)))).length
        · simp [hk]
        · simp [hk]
    · rw [if_neg h1, if_neg h1]
      rfl

/-- Every window produced by the spec recurrence spans `[s, min (len, s + size))`. -/
theorem specWindowsAux_shape (size overlap len : Nat) :
    ∀ fuel start, ∀ w ∈ specWindowsAux size overlap len fuel start,
      w.2 = min len (w.1 + size) := by
  intro fuel
  induction fuel with
  | zero => intro start w hw; simp [specWindowsAux] at hw
  | succ fuel ih =>
    intro start w hw
    rw [specWindowsAux] at hw
    by_cases h1 : start < len
    · rw [if_pos h1] at hw
      rcases List.mem_cons.mp hw with hw | hw
      · simp [hw]
      · by_cases h2 : min len (start + size) < len
        · rw [if_pos h2] at hw
          exact ih _ w hw
        · rw [if_neg h2] at hw; simp at hw
    · rw [if_neg h1] at hw; simp at hw

/-- The head of the spec window list (when the loop runs at all). -/
theorem specWindowsAux_head (size overlap len fuel start : Nat)
    (h1 : start < len) (h2 : 0 < fuel) :
    (specWindowsAux size overlap len fuel start).head? =
      some (start, min len (start + size)) := by
  cases fuel with
  | zero => omega
  | succ fuel =>
    rw [specWindowsAux, if_pos h1]
    rfl

/-- Adjacent spec windows satisfy `start_{k+1} + overlap = end_k` (so
`start_{k+1} = end_k − overlap` exactly, no clamping needed) and
`end_k ≤ end_{k+1}` (so the spans overlap by exactly `overlap` characters). -/
theorem specWindowsAux_chain (size overlap len : Nat) (h : overlap < size) :
    ∀ fuel start, len - start < fuel →
      List.Chain' (fun w w' => w'.1 + overlap = w.2 ∧ w.2 ≤ w'.2)
        (specWindowsAux size overlap len fuel start) := by
  intro fuel
  induction fuel with
  | zero => intro start hs; omega
  | succ fuel ih =>
    intro start hs
    rw [specWindowsAux]
    by_cases h1 : start < len
    · rw [if_pos h1]
      by_cases h2 : min len (start + size) < len
      · rw [if_pos h2]
        have hmin : min len (start + size) = start + size := by omega
        rw [List.chain'_cons']
        refine ⟨?_, ih (min len (start + size) - overlap) (by omega)⟩
        intro y hy
        rw [specWindowsAux_head size overlap len fuel _ (by omega) (by omega)] at hy
        simp only [Option.mem_def, Option.some.injEq] at hy
        subst hy
        constructor
        · simp only []; omega
        · simp only []; omega
      · rw [if_neg h2]
        simp
    · rw [if_neg h1]
      simp

/-- C3 (amended): with the default parameters, `chunkText` emits exactly the
spec-described windows — window `k` spans `[start_k, start_k + 1200)` clamped
to the text end, the next window starts at `end_k − 200` (never negative, and
with no clamping actually needed), consecutive window spans overlap by exactly
200 characters, the first window starts at 0 — each window **trimmed**, and a
window is dropped exactly when its *trimmed* text has fewer than 30 characters
(not when it has fewer than 30 non-whitespace characters; see the
counterexample `chunk_nonws_kept_cex`). -/
theorem chunkText_windows_spec (text : Str) :
    chunkTextDefault text =
      ((specWindows (normalizeText text).length).map
         fun w => jsTrim (jsSlice (normalizeText text) w.1 w.2)).filter
           (fun p => decide (30 ≤ p.length)) ∧
    (∀ w ∈ specWindows (normalizeText text).length,
       w.2 = min (normalizeText text).length (w.1 + CHUNK_CHARS)) ∧
    List.Chain' (fun w w' => w'.1 + CHUNK_OVERLAP = w.2 ∧ w.2 ≤ w'.2)
      (specWindows (normalizeText text).length) ∧
    (((specWindows (normalizeText text).length).head?.map Prod.fst).getD 0 = 0) := by
  have hos : CHUNK_OVERLAP < CHUNK_CHARS := by decide
  refine ⟨?_, ?_, ?_, ?_⟩
  · rw [chunkTextDefault, chunkText]
    by_cases ht : normalizeText text = []
    · rw [if_pos ht, specWindows]
      rw [ht]
      rfl
    · rw [if_neg ht]
      rw [specWindows,
        chunkLoopF_eq_specWindows CHUNK_CHARS CHUNK_OVERLAP (normalizeText text) hos
          ((normalizeText text).length + 1) 0 (by omega)]
      rfl
  · exact specWindowsAux_shape CHUNK_CHARS CHUNK_OVERLAP _ _ 0
  · exact specWindowsAux_chain CHUNK_CHARS CHUNK_OVERLAP _ hos _ 0 (by omega)
  · rw [specWindows]
    by_cases h1 : 0 < (normalizeText text).length
    · rw [specWindowsAux_head _ _ _ _ 0 h1 (by omega)]
      rfl
    · have : (normalizeText text).length = 0 := by omega
      rw [this]
      rfl

/-- Counterexample to C3's drop rule as stated: on this text the single window
(the whole text, 31 characters) has only 16 non-whitespace characters — fewer
than 30 — yet it is **not** dropped, because the code drops a window only when
its trimmed length is below 30. -/
theorem chunk_nonws_kept_cex :
    chunkTextDefault "a a a a a a a a a a a a a a a a".data =
      ["a a a a a a a a a a a a a a a a".data] ∧
    ("a a a a a a a a a a a a a a a a".data.filter fun c => !(jsWS c)).length < 30 := by
  constructor <;> decide

/-! ## C2: retrieval -/

/-- Stability of `orderedInsert` under `rScore`: inserting `a` does not disturb
the relative order of the elements of any fixed score class, and `a` lands in
front of the elements of its own class. -/
theorem filter_orderedInsert (s : ℚ) (a : Scored) :
    ∀ l : List Scored,
      (List.orderedInsert rScore a l).filter (fun x => decide (x.score = s)) =
        if a.score = s then a :: l.filter (fun x => decide (x.score = s))
        else l.filter (fun x => decide (x.score = s)) := by
  intro l
  induction l with
  | nil =>
    by_cases ha : a.score = s <;> simp [List.orderedInsert, List.filter, ha]
  | cons b l ih =>
    rw [List.orderedInsert]
    by_cases hr : rScore a b
    · rw [if_pos hr]
      by_cases ha : a.score = s <;> simp [List.filter_cons, ha]
    · rw [if_neg hr]
      have hab : a.score < b.score := lt_of_not_le hr
      by_cases ha : a.score = s
      · have hb : ¬ b.score = s := by
          intro hbs
          exact absurd (hbs.trans ha.symm) (ne_of_gt hab)
        simp [List.filter_cons, ha, hb, ih]
      · by_cases hb : b.score = s <;> simp [List.filter_cons, ha, hb, ih]

/-- Stability of the sort used by `topKByScore`: filtering any score class out
of the sorted list yields that class in its original (insertion) order. -/
theorem filter_insertionSort (s : ℚ) :
    ∀ l : List Scored,
      (List.insertionSort rScore l).filter (fun x => decide (x.score = s)) =
        l.filter (fun x => decide (x.score = s)) := by
  intro l
  induction l with
  | nil => rfl
  | cons b l ih =>
    rw [List.insertionSort, filter_orderedInsert]
    by_cases hb : b.score = s <;> simp [List.filter_cons, hb, ih]

/-- C2: retrieval (`retrieveTopChunks` = `topKByScore` over the scored chunk
list with `k = TOP_K`) returns at most `k` results; the results are sorted by
score — the dot product of the query with the chunk embedding — in descending
order (`rScore`); no chunk with an absent embedding appears; and ties are
broken by the insertion order of the chunks: filtering any fixed score out of
the result yields a prefix of that score class in the original chunk order
(stability of the sort). -/
theorem retrieve_topK_spec (q : List ℚ) (chunks : List Chunk) (k : Nat) :
    retrieveTopChunks q chunks = topKByScore (scoredChunks q chunks) TOP_K ∧
    (topKByScore (scoredChunks q chunks) k).length ≤ k ∧
    List.Pairwise rScore (topKByScore (scoredChunks q chunks) k) ∧
    (∀ it ∈ topKByScore (scoredChunks q chunks) k,
       ∃ e, it.ch.embedding = some e ∧ it.score = dot q e) ∧
    ∀ s : ℚ,
      (topKByScore (scoredChunks q chunks) k).filter (fun x => decide (x.score = s)) <+:
        (scoredChunks q chunks).filter (fun x => decide (x.score = s)) := by
  refine ⟨rfl, ?_, ?_, ?_, ?_⟩
  · rw [topKByScore, List.length_take]
    exact min_le_left _ _
  · exact (List.sorted_insertionSort rScore _).sublist (List.take_sublist _ _)
  · intro it hit
    have h1 : it ∈ List.insertionSort rScore (scoredChunks q chunks) :=
      (List.take_sublist _ _).mem hit
    have h2 : it ∈ scoredChunks q chunks := (List.mem_insertionSort rScore).mp h1
    rw [scoredChunks, List.mem_filterMap] at h2
    obtain ⟨ch, _, hch⟩ := h2
    rcases he : ch.embedding with _ | e
    · simp [he] at hch
    · rw [he] at hch
      have hit : (⟨dot q e, ch⟩ : Scored) = it := by simpa using hch
      exact ⟨e, by rw [← hit]; exact he, by rw [← hit]⟩
  · intro s
    have hfs := filter_insertionSort s (scoredChunks q chunks)
    rw [topKByScore, ← hfs]
    exact ⟨(((List.insertionSort rScore (scoredChunks q chunks)).drop k).filter
            (fun x => decide (x.score = s))),
      by rw [← List.filter_append, List.take_append_drop]⟩

/-! ## C6: citation parsing -/

/-- `takeWhile`/`dropWhile` on a digit run terminated by `]`. -/
theorem takeWhile_digits_append (t : Str) :
    ∀ ds : Str, (∀ c ∈ ds, c.isDigit = true) →
      (ds ++ ']' :: t).takeWhile Char.isDigit = ds ∧
      (ds ++ ']' :: t).dropWhile Char.isDigit = ']' :: t := by
  intro ds
  induction ds with
  | nil =>
    intro _
    constructor <;> simp [List.takeWhile, List.dropWhile]
  | cons c ds ih =>
    intro hd
    have hc : c.isDigit = true := hd c (List.mem_cons_self c ds)
    have := ih fun x hx => hd x (List.mem_cons_of_mem c hx)
    constructor <;> simp [List.takeWhile_cons, List.dropWhile_cons, hc, this.1, this.2]

/-- Characterization of a head match of `\[C(\d+)\]`. -/
theorem citeHit_iff (m : Str) (n : Nat) :
    citeHit m = some n ↔
      ∃ ds : Str, ds ≠ [] ∧ (∀ c ∈ ds, c.isDigit = true) ∧ digitsVal ds = n ∧
        ∃ t, m = '[' :: 'C' :: (ds ++ ']' :: t) := by
  rcases m with _ | ⟨c, _ | ⟨d, rest⟩⟩
  · simp [citeHit]
  · simp only [citeHit]
    constructor
    · intro h; cases h
    · rintro ⟨ds, hne, _, _, t, h⟩
      injection h with _ h
      exact absurd h (by simp)
  · rw [citeHit]
    by_cases hcd : c = '[' ∧ d = 'C'
    · rw [if_pos hcd]
      by_cases hm : rest.takeWhile Char.isDigit ≠ [] ∧
          (rest.dropWhile Char.isDigit).head? = some ']'
      · rw [if_pos hm]
        constructor
        · intro h
          have hval : digitsVal (rest.takeWhile Char.isDigit) = n := by
            injection h
          refine ⟨rest.takeWhile Char.isDigit, hm.1, ?_, hval, ?_⟩
          · intro x hx
            exact List.mem_takeWhile_imp hx
          · rcases hdw : rest.dropWhile Char.isDigit with _ | ⟨x, xs⟩
            · rw [hdw] at hm; simp at hm
            · have hx : x = ']' := by
                have := hm.2
                rw [hdw] at this
                simpa using this
              refine ⟨xs, ?_⟩
              rw [hcd.1, hcd.2, ← hx, ← hdw, List.takeWhile_append_dropWhile]
        · rintro ⟨ds, hne, hdig, hval, t, hm2⟩
          injection hm2 with _ hm2
          injection hm2 with _ hm2
          have htw := takeWhile_digits_append t ds hdig
          rw [hm2, htw.1, hval]
      · rw [if_neg hm]
        constructor
        · intro h; cases h
        · rintro ⟨ds, hne, hdig, hval, t, hm2⟩
          injection hm2 with _ hm2
          injection hm2 with _ hm2
          have htw := takeWhile_digits_append t ds hdig
          rw [hm2] at hm
          rw [htw.1, htw.2] at hm
          simp [hne] at hm
    · rw [if_neg hcd]
      constructor
      · intro h; cases h
      · rintro ⟨ds, hne, hdig, hval, t, hm2⟩
        injection hm2 with h1 hm2
        injection hm2 with h2 _
        exact absurd ⟨h1, h2⟩ hcd

/-- C6 (amended): citation parsing returns exactly the set of integers `n` such
that for some nonempty digit string `s` whose numeric value is `n`, the literal
substring `"[C" + s + "]"` appears in the answer.  (Leading zeros are accepted
and map to the same integer, so this set can differ from
`{n : "[C" + n + "]" appears}`; see `parse_citations_leading_zero_cex`.) -/
theorem parse_citations_spec (l : Str) (n : Nat) :
    n ∈ parseUsedCitations l ↔
      ∃ ds : Str, ds ≠ [] ∧ (∀ c ∈ ds, c.isDigit = true) ∧ digitsVal ds = n ∧
        hasSeg ('[' :: 'C' :: (ds ++ [']'])) l = true := by
  rw [parseUsedCitations, List.mem_toFinset]
  induction l with
  | nil =>
    simp only [parseCitationsScan, List.not_mem_nil, false_iff]
    rintro ⟨ds, _, _, _, hseg⟩
    simp [hasSeg, beginsWith] at hseg
  | cons c cs ih =>
    rw [parseCitationsScan, List.mem_append]
    have hleft : n ∈ (citeHit (c :: cs)).toList ↔
        ∃ ds : Str, ds ≠ [] ∧ (∀ x ∈ ds, x.isDigit = true) ∧ digitsVal ds = n ∧
          beginsWith ('[' :: 'C' :: (ds ++ [']'])) (c :: cs) = true := by
      rw [Option.mem_toList, Option.mem_def, citeHit_iff]
      constructor
      · rintro ⟨ds, hne, hdig, hval, t, hm⟩
        refine ⟨ds, hne, hdig, hval, ?_⟩
        rw [beginsWith_iff]
        exact ⟨t, by simp [hm]⟩
      · rintro ⟨ds, hne, hdig, hval, hb⟩
        rw [beginsWith_iff] at hb
        obtain ⟨t, ht⟩ := hb
        exact ⟨ds, hne, hdig, hval, t, by simpa using ht⟩
    rw [hleft, ih]
    constructor
    · rintro (⟨ds, hne, hdig, hval, hb⟩ | ⟨ds, hne, hdig, hval, hseg⟩)
      · exact ⟨ds, hne, hdig, hval, by rw [hasSeg]; simp [hb]⟩
      · exact ⟨ds, hne, hdig, hval, by rw [hasSeg]; simp [hseg]⟩
    · rintro ⟨ds, hne, hdig, hval, hseg⟩
      rw [hasSeg, Bool.or_eq_true] at hseg
      rcases hseg with hb | hs
      · exact Or.inl ⟨ds, hne, hdig, hval, hb⟩
      · exact Or.inr ⟨ds, hne, hdig, hval, hs⟩

/-- Counterexample to C6 as stated: the answer `"[C007]"` parses to the
citation set `{7}`, yet the literal substring `"[C" + 7 + "]"` (that is,
`"[C7]"`) does not appear in the answer — so the parsed set is not
`{n : "[C" + n + "]" appears in the answer}`. -/
theorem parse_citations_leading_zero_cex :
    7 ∈ parseUsedCitations "[C007]".data ∧
    hasSeg ('[' :: 'C' :: ((Nat.repr 7).data ++ [']'])) "[C007]".data = false := by
  constructor <;> decide

/-! ## C4: idempotence of `normalizeText`

The five stages are analyzed through the invariants their outputs satisfy:
no NUL, no tab and no two adjacent space/tab characters, no carriage return
(for CR-free inputs), no run of three newlines, and trimmed ends.  Each stage
is the identity on strings satisfying its invariant. -/

/-- No two adjacent characters are both spaces/tabs. -/
def stPairFree (l : Str) : Prop :=
  List.Chain' (fun a b => ¬(isST a = true ∧ isST b = true)) l

/-- A run of three newlines, as a search pattern. -/
def nlRun3 : Str := ['\n', '\n', '\n']

theorem mem_replaceNul {c : Char} {l : Str} (h : c ∈ replaceNul l) :
    c = ' ' ∨ c ∈ l := by
  rw [replaceNul, List.mem_map] at h
  obtain ⟨d, hd, hc⟩ := h
  by_cases hn : d = '\x00'
  · rw [hn] at hc; simp at hc; exact Or.inl hc.symm
  · rw [if_neg hn] at hc; exact Or.inr (hc ▸ hd)

theorem replaceNul_no_nul {c : Char} {l : Str} (h : c ∈ replaceNul l) :
    c ≠ '\x00' := by
  rw [replaceNul, List.mem_map] at h
  obtain ⟨d, _, hc⟩ := h
  by_cases hn : d = '\x00'
  · rw [hn] at hc; simp at hc; rw [← hc]; decide
  · rw [if_neg hn] at hc; rw [← hc]; exact hn

theorem replaceNul_eq_self {l : Str} (h : ∀ c ∈ l, c ≠ '\x00') :
    replaceNul l = l := by
  induction l with
  | nil => rfl
  | cons c cs ih =>
    rw [replaceNul, List.map_cons, if_neg (h c (List.mem_cons_self c cs))]
    exact congrArg (c :: ·) (ih fun x hx => h x (List.mem_cons_of_mem c hx))

theorem mem_collapseSTAux {c : Char} :
    ∀ (l : Str) (b : Bool), c ∈ collapseSTAux b l → c = ' ' ∨ (c ∈ l ∧ isST c = false) := by
  intro l
  induction l with
  | nil => intro b h; simp [collapseSTAux] at h
  | cons a cs ih =>
    intro b h
    rw [collapseSTAux] at h
    by_cases hst : isST a = true
    · rw [if_pos hst] at h
      cases b with
      | true =>
        rcases ih true h with h | h
        · exact Or.inl h
        · exact Or.inr ⟨List.mem_cons_of_mem a h.1, h.2⟩
      | false =>
        rcases List.mem_cons.mp h with h | h
        · exact Or.inl h
        · rcases ih true h with h | h
          · exact Or.inl h
          · exact Or.inr ⟨List.mem_cons_of_mem a h.1, h.2⟩
    · rw [if_neg hst] at h
      rcases List.mem_cons.mp h with h | h
      · exact Or.inr ⟨h ▸ List.mem_cons_self a cs, h ▸ (Bool.not_eq_true _).mp hst⟩
      · rcases ih false h with h | h
        · exact Or.inl h
        · exact Or.inr ⟨List.mem_cons_of_mem a h.1, h.2⟩

theorem collapseSTAux_true_head {d : Char} :
    ∀ l : Str, (collapseSTAux true l).head? = some d → isST d = false := by
  intro l
  induction l with
  | nil => intro h; simp [collapseSTAux] at h
  | cons a cs ih =>
    intro h
    rw [collapseSTAux] at h
    by_cases hst : isST a = true
    · rw [if_pos hst] at h
      exact ih h
    · rw [if_neg hst] at h
      simp only [List.head?_cons, Option.some.injEq] at h
      exact h ▸ (Bool.not_eq_true _).mp hst

theorem collapseSTAux_chain : ∀ (l : Str) (b : Bool), stPairFree (collapseSTAux b l) := by
  intro l
  induction l with
  | nil => intro b; simp [collapseSTAux, stPairFree]
  | cons a cs ih =>
    intro b
    rw [collapseSTAux]
    by_cases hst : isST a = true
    · rw [if_pos hst]
      cases b with
      | true =>
        rw [if_pos rfl]
        exact ih true
      | false =>
        rw [if_neg Bool.false_ne_true]
        rw [stPairFree, List.chain'_cons']
        refine ⟨?_, ih true⟩
        intro y hy
        have := collapseSTAux_true_head cs hy
        simp [this]
    · rw [if_neg hst]
      rw [stPairFree, List.chain'_cons']
      refine ⟨?_, ih false⟩
      intro y _
      simp [(Bool.not_eq_true _).mp hst]

theorem collapseSTAux_eq_self :
    ∀ l : Str, (∀ c ∈ l, c ≠ '\t') → stPairFree l →
      collapseSTAux false l = l ∧
      ((∀ d, l.head? = some d → isST d = false) → collapseSTAux true l = l) := by
  intro l
  induction l with
  | nil => exact fun _ _ => ⟨rfl, fun _ => rfl⟩
  | cons a cs ih =>
    intro hTab hChain
    have hTab' : ∀ c ∈ cs, c ≠ '\t' := fun x hx => hTab x (List.mem_cons_of_mem a hx)
    have hChain' := (List.chain'_cons'.mp hChain).2
    have hrel := (List.chain'_cons'.mp hChain).1
    have ihcs := ih hTab' hChain'
    constructor
    · rw [collapseSTAux]
      by_cases hst : isST a = true
      · rw [if_pos hst, if_neg Bool.false_ne_true]
        have ha : a = ' ' := by
          rcases Bool.or_eq_true_iff.mp (by rw [← isST]; exact hst) with h | h
          · exact (beq_iff_eq.mp h)
          · exact absurd (beq_iff_eq.mp h) (hTab a (List.mem_cons_self a cs))
        have hcs2 : collapseSTAux true cs = cs := by
          refine ihcs.2 ?_
          intro d hd
          have := hrel d hd
          rw [hst] at this
          simpa using this
        rw [hcs2, ha]
      · rw [if_neg hst, ihcs.1]
    · intro hhead
      rw [collapseSTAux]
      have hst : ¬ isST a = true := by
        have := hhead a (by simp)
        simp [this]
      rw [if_neg hst, ihcs.1]

theorem mem_collapseNLAux {c : Char} :
    ∀ (l : Str) (r : Nat), c ∈ collapseNLAux r l → c = '\n' ∨ c ∈ l := by
  intro l
  induction l with
  | nil => intro r h; simp [collapseNLAux] at h
  | cons a cs ih =>
    intro r h
    rw [collapseNLAux] at h
    by_cases ha : a = '\n'
    · rw [if_pos ha] at h
      by_cases hr : r < 2
      · rw [if_pos hr] at h
        rcases List.mem_cons.mp h with h | h
        · exact Or.inl h
        · rcases ih (r + 1) h with h | h
          · exact Or.inl h
          · exact Or.inr (List.mem_cons_of_mem a h)
      · rw [if_neg hr] at h
        rcases ih (r + 1) h with h | h
        · exact Or.inl h
        · exact Or.inr (List.mem_cons_of_mem a h)
    · rw [if_neg ha] at h
      rcases List.mem_cons.mp h with h | h
      · exact Or.inr (h ▸ List.mem_cons_self a cs)
      · rcases ih 0 h with h | h
        · exact Or.inl h
        · exact Or.inr (List.mem_cons_of_mem a h)

theorem collapseNLAux_head_ge2 {d : Char} :
    ∀ (l : Str) (r : Nat), 2 ≤ r → (collapseNLAux r l).head? = some d → d ≠ '\n' := by
  intro l
  induction l with
  | nil => intro r _ h; simp [collapseNLAux] at h
  | cons a cs ih =>
    intro r hr h
    rw [collapseNLAux] at h
    by_cases ha : a = '\n'
    · rw [if_pos ha, if_neg (by omega)] at h
      exact ih (r + 1) (by omega) h
    · rw [if_neg ha] at h
      simp only [List.head?_cons, Option.some.injEq] at h
      exact h ▸ ha

theorem collapseNLAux_begins2_false :
    ∀ cs : Str, beginsWith ['\n', '\n'] (collapseNLAux 1 cs) = false := by
  intro cs
  cases cs with
  | nil => rfl
  | cons d ds =>
    rw [collapseNLAux]
    by_cases hd : d = '\n'
    · rw [if_pos hd, if_pos (by omega)]
      rw [beginsWith]
      simp only [beq_self_eq_true, Bool.true_and]
      rcases hX : collapseNLAux 2 ds with _ | ⟨y, ys⟩
      · rfl
      · rw [beginsWith]
        have hy : y ≠ '\n' :=
          collapseNLAux_head_ge2 ds 2 le_rfl (by rw [hX]; rfl)
        simp only [Bool.and_eq_false_iff, beq_eq_false_iff_ne]
        exact Or.inl fun h => hy h.symm
    · rw [if_neg hd]
      rw [beginsWith]
      simp only [Bool.and_eq_false_iff, beq_eq_false_iff_ne]
      exact Or.inl fun h => hd h.symm

theorem collapseNLAux_no_triple :
    ∀ (l : Str) (r : Nat), hasSeg nlRun3 (collapseNLAux r l) = false := by
  intro l
  induction l with
  | nil => intro r; rfl
  | cons a cs ih =>
    intro r
    rw [collapseNLAux]
    by_cases ha : a = '\n'
    · rw [if_pos ha]
      by_cases hr : r < 2
      · rw [if_pos hr]
        rw [hasSeg, Bool.or_eq_false_iff]
        refine ⟨?_, ih (r + 1)⟩
        rw [nlRun3, beginsWith]
        simp only [beq_self_eq_true, Bool.true_and]
        interval_cases r
        · exact collapseNLAux_begins2_false cs
        · rcases hX : collapseNLAux 2 cs with _ | ⟨y, ys⟩
          · rfl
          · rw [beginsWith]
            have hy : y ≠ '\n' :=
              collapseNLAux_head_ge2 cs 2 le_rfl (by rw [hX]; rfl)
            simp only [Bool.and_eq_false_iff, beq_eq_false_iff_ne]
            exact Or.inl fun h => hy h.symm
      · rw [if_neg hr]
        exact ih (r + 1)
    · rw [if_neg ha]
      rw [hasSeg, Bool.or_eq_false_iff]
      refine ⟨?_, ih 0⟩
      rw [nlRun3, beginsWith]
      simp only [Bool.and_eq_false_iff, beq_eq_false_iff_ne]
      exact Or.inl fun h => ha h.symm

theorem collapseNLAux_eq_self :
    ∀ (l : Str) (r : Nat), r ≤ 2 →
      hasSeg nlRun3 (List.replicate r '\n' ++ l) = false → collapseNLAux r l = l := by
  intro l
  induction l with
  | nil => intro r _ _; rfl
  | cons a cs ih =>
    intro r hr h
    rw [collapseNLAux]
    by_cases ha : a = '\n'
    · subst ha
      rw [if_pos rfl]
      have hrlt : r < 2 := by
        by_contra h2
        have hr2 : r = 2 := by omega
        subst hr2
        rw [show List.replicate 2 '\n' ++ '\n' :: cs = '\n' :: '\n' :: '\n' :: cs from rfl,
          hasSeg, Bool.or_eq_false_iff] at h
        have : beginsWith nlRun3 ('\n' :: '\n' :: '\n' :: cs) = true := by
          simp [nlRun3, beginsWith]
        rw [this] at h
        exact absurd h.1 (by simp)
      rw [if_pos hrlt]
      have hrep : List.replicate (r + 1) '\n' ++ cs = List.replicate r '\n' ++ ('\n' :: cs) := by
        rw [List.replicate_succ', List.append_assoc]
        rfl
      rw [ih (r + 1) (by omega) (by rw [hrep]; exact h)]
    · rw [if_neg ha]
      rw [ih 0 (by omega) ?_]
      exact hasSeg_false_of_decomp h (List.replicate r '\n' ++ [a]) []
        (by simp)

theorem collapseNLAux_head0 {d : Char} (cs : Str)
    (h : (collapseNLAux 0 cs).head? = some d) : d = '\n' ∨ cs.head? = some d := by
  cases cs with
  | nil => simp [collapseNLAux] at h
  | cons e es =>
    rw [collapseNLAux] at h
    by_cases he : e = '\n'
    · rw [if_pos he, if_pos (by omega)] at h
      simp only [List.head?_cons, Option.some.injEq] at h
      exact Or.inl h.symm
    · rw [if_neg he] at h
      simp only [List.head?_cons, Option.some.injEq] at h
      exact Or.inr (by simp [h])

theorem collapseNLAux_chain :
    ∀ (l : Str) (r : Nat), stPairFree l → stPairFree (collapseNLAux r l) := by
  intro l
  induction l with
  | nil => intro r _; simp [collapseNLAux, stPairFree]
  | cons a cs ih =>
    intro r hChain
    have hrel := (List.chain'_cons'.mp hChain).1
    have htail := (List.chain'_cons'.mp hChain).2
    rw [collapseNLAux]
    by_cases ha : a = '\n'
    · rw [if_pos ha]
      by_cases hr : r < 2
      · rw [if_pos hr]
        rw [stPairFree, List.chain'_cons']
        refine ⟨?_, ih (r + 1) htail⟩
        intro y _
        have : isST '\n' = false := by decide
        simp [this]
      · rw [if_neg hr]
        exact ih (r + 1) htail
    · rw [if_neg ha]
      rw [stPairFree, List.chain'_cons']
      refine ⟨?_, ih 0 htail⟩
      intro y hy
      rcases collapseNLAux_head0 cs hy with hny | hcsy
      · subst hny
        have : isST '\n' = false := by decide
        simp [this]
      · exact hrel y hcsy

theorem mem_replaceCRLF {c : Char} : ∀ l : Str, c ∈ replaceCRLF l → c = '\n' ∨ c ∈ l := by
  intro l
  induction l using replaceCRLF.induct with
  | case1 => intro h; simp [replaceCRLF] at h
  | case2 d => intro h; rw [replaceCRLF] at h; exact Or.inr h
  | case3 a d cs hcd ih =>
    intro h
    rw [replaceCRLF, if_pos hcd] at h
    rcases List.mem_cons.mp h with h | h
    · exact Or.inl h
    · rcases ih h with h | h
      · exact Or.inl h
      · exact Or.inr (List.mem_cons_of_mem a (List.mem_cons_of_mem d h))
  | case4 a d cs hcd ih =>
    intro h
    rw [replaceCRLF, if_neg hcd] at h
    rcases List.mem_cons.mp h with h | h
    · exact Or.inr (h ▸ List.mem_cons_self a (d :: cs))
    · rcases ih h with h | h
      · exact Or.inl h
      · exact Or.inr (List.mem_cons_of_mem a h)

theorem replaceCRLF_eq_self : ∀ l : Str, (∀ c ∈ l, c ≠ '\x0d') → replaceCRLF l = l := by
  intro l
  induction l using replaceCRLF.induct with
  | case1 => intro _; rfl
  | case2 d => intro _; rfl
  | case3 a d cs hcd ih =>
    intro h
    exact absurd hcd.1 (h a (List.mem_cons_self a (d :: cs)))
  | case4 a d cs hcd ih =>
    intro h
    rw [replaceCRLF, if_neg hcd,
      ih fun x hx => h x (List.mem_cons_of_mem a hx)]

theorem head?_dropWhile {p : Char → Bool} :
    ∀ l : Str, ∀ c, (l.dropWhile p).head? = some c → p c = false := by
  intro l
  induction l with
  | nil => intro c h; simp at h
  | cons a as ih =>
    intro c h
    rw [List.dropWhile_cons] at h
    by_cases hp : p a = true
    · rw [if_pos hp] at h
      exact ih c h
    · rw [if_neg hp] at h
      simp only [List.head?_cons, Option.some.injEq] at h
      exact h ▸ (Bool.not_eq_true _).mp hp

/-- The trimmed string sits inside the `dropWhile` of the original, followed by
the (reversed) trailing whitespace. -/
theorem jsTrim_split (l : Str) :
    l.dropWhile jsWS =
      jsTrim l ++ ((l.dropWhile jsWS).reverse.takeWhile jsWS).reverse := by
  rw [jsTrim]
  conv_lhs => rw [← List.reverse_reverse (l.dropWhile jsWS),
    ← List.takeWhile_append_dropWhile jsWS (l.dropWhile jsWS).reverse]
  rw [List.reverse_append]

/-- The trimmed string is an inner segment of the original. -/
theorem jsTrim_decomp (l : Str) : ∃ a b, l = a ++ (jsTrim l ++ b) := by
  refine ⟨l.takeWhile jsWS, ((l.dropWhile jsWS).reverse.takeWhile jsWS).reverse, ?_⟩
  conv_lhs => rw [← List.takeWhile_append_dropWhile jsWS l, jsTrim_split l]

theorem mem_jsTrim {c : Char} {l : Str} (h : c ∈ jsTrim l) : c ∈ l := by
  obtain ⟨a, b, hd⟩ := jsTrim_decomp l
  rw [hd, List.mem_append, List.mem_append]
  exact Or.inr (Or.inl h)

theorem jsTrim_head {c : Char} {l : Str} (h : (jsTrim l).head? = some c) :
    jsWS c = false := by
  apply head?_dropWhile l c
  rcases ht : jsTrim l with _ | ⟨x, xs⟩
  · rw [ht] at h; cases h
  · rw [ht] at h
    simp only [List.head?_cons, Option.some.injEq] at h
    rw [jsTrim_split l, ht, ← h]
    rfl

theorem jsTrim_last {c : Char} {l : Str} (h : (jsTrim l).getLast? = some c) :
    jsWS c = false := by
  rw [jsTrim, List.getLast?_reverse] at h
  exact head?_dropWhile _ c h

theorem jsTrim_eq_self {l : Str}
    (hh : ∀ c, l.head? = some c → jsWS c = false)
    (hl : ∀ c, l.getLast? = some c → jsWS c = false) :
    jsTrim l = l := by
  have h1 : l.dropWhile jsWS = l := by
    cases l with
    | nil => rfl
    | cons a as =>
      rw [List.dropWhile_cons, if_neg (by simp [hh a rfl])]
  have h2 : l.reverse.dropWhile jsWS = l.reverse := by
    cases hrev : l.reverse with
    | nil => rfl
    | cons a as =>
      have ha : l.getLast? = some a := by
        rw [← List.head?_reverse, hrev]
        rfl
      rw [List.dropWhile_cons, if_neg (by simp [hl a ha])]
  rw [jsTrim, h1, h2, List.reverse_reverse]

/-- A chain over an inner segment of a chained list. -/
theorem chain'_of_decomp {R : Char → Char → Prop} {l m : Str}
    (h : List.Chain' R l) (a b : Str) (hd : l = a ++ (m ++ b)) :
    List.Chain' R m := by
  subst hd
  exact ((List.chain'_append.mp ((List.chain'_append.mp h).2.1)).1)

/-- Counterexample to C4 as stated: normalization is **not** idempotent.  On
`"a\r\r\nb"` one pass rewrites the `\r\n` at positions 2–3 leaving `"a\r\nb"`,
and a second pass rewrites the newly adjacent `\r\n` to give `"a\nb"`. -/
theorem normalize_not_idempotent_cex :
    normalizeText (normalizeText "a\x0d\x0d\nb".data) ≠
      normalizeText "a\x0d\x0d\nb".data := by
  decide

/-- C4 (amended): normalization is idempotent on every input containing no
carriage return; in general it is not (`normalize_not_idempotent_cex`), because
`.replace(/\r\n/g, "\n")` can bring a surviving `\r` next to a `\n`. -/
theorem normalize_idem_of_no_cr (t : Str) (h : '\x0d' ∉ t) :
    normalizeText (normalizeText t) = normalizeText t := by
  have hx2 : replaceCRLF (collapseST (replaceNul t)) = collapseST (replaceNul t) := by
    apply replaceCRLF_eq_self
    intro c hc
    rcases mem_collapseSTAux _ false hc with rfl | ⟨hc0, _⟩
    · decide
    · rcases mem_replaceNul hc0 with rfl | hct
      · decide
      · exact fun hEq => h (hEq ▸ hct)
  have ho : normalizeText t = jsTrim (collapseNL3 (collapseST (replaceNul t))) := by
    rw [normalizeText, hx2]
  have hdecomp := jsTrim_decomp (collapseNL3 (collapseST (replaceNul t)))
  obtain ⟨da, db, hdc⟩ := hdecomp
  -- membership structure of the normalized string
  have hmemA : ∀ c ∈ normalizeText t,
      c = '\n' ∨ c = ' ' ∨ (c ∈ replaceNul t ∧ isST c = false) := by
    intro c hc
    rw [ho] at hc
    have hc3 := mem_jsTrim hc
    rcases mem_collapseNLAux _ 0 hc3 with rfl | hc1
    · exact Or.inl rfl
    · rcases mem_collapseSTAux _ false hc1 with rfl | ⟨hc0, hcst⟩
      · exact Or.inr (Or.inl rfl)
      · exact Or.inr (Or.inr ⟨hc0, hcst⟩)
  have hP1 : ∀ c ∈ normalizeText t, c ≠ '\x00' := by
    intro c hc
    rcases hmemA c hc with rfl | rfl | ⟨hc0, _⟩
    · decide
    · decide
    · exact replaceNul_no_nul hc0
  have hP2 : ∀ c ∈ normalizeText t, c ≠ '\t' := by
    intro c hc
    rcases hmemA c hc with rfl | rfl | ⟨_, hcst⟩
    · decide
    · decide
    · intro hEq
      rw [hEq] at hcst
      exact absurd hcst (by decide)
  have hP3 : ∀ c ∈ normalizeText t, c ≠ '\x0d' := by
    intro c hc
    rcases hmemA c hc with rfl | rfl | ⟨hc0, _⟩
    · decide
    · decide
    · rcases mem_replaceNul hc0 with rfl | hct
      · decide
      · exact fun hEq => h (hEq ▸ hct)
  have hP4 : stPairFree (normalizeText t) := by
    rw [ho]
    exact chain'_of_decomp
      (collapseNLAux_chain _ 0 (collapseSTAux_chain _ false)) da db hdc
  have hP5 : hasSeg nlRun3 (normalizeText t) = false := by
    rw [ho]
    exact hasSeg_false_of_decomp (collapseNLAux_no_triple _ 0) da db hdc
  have hP6 : ∀ c, (normalizeText t).head? = some c → jsWS c = false := by
    intro c hc
    rw [ho] at hc
    exact jsTrim_head hc
  have hP7 : ∀ c, (normalizeText t).getLast? = some c → jsWS c = false := by
    intro c hc
    rw [ho] at hc
    exact jsTrim_last hc
  -- the five stages are the identity on the normalized string
  show jsTrim (collapseNL3 (replaceCRLF (collapseST (replaceNul (normalizeText t))))) =
    normalizeText t
  rw [replaceNul_eq_self hP1,
    show collapseST (normalizeText t) = normalizeText t from
      (collapseSTAux_eq_self _ hP2 hP4).1,
    replaceCRLF_eq_self _ hP3,
    show collapseNL3 (normalizeText t) = normalizeText t from
      collapseNLAux_eq_self _ 0 (by omega) (by simpa using hP5),
    jsTrim_eq_self hP6 hP7]

/-- Witness for the amended C4 at a concrete CR-free input. -/
theorem normalize_idem_witness :
    '\x0d' ∉ "  a\t\tb\n\n\n\nc \x00 ".data ∧
    normalizeText (normalizeText "  a\t\tb\n\n\n\nc \x00 ".data) =
      normalizeText "  a\t\tb\n\n\n\nc \x00 ".data :=
  ⟨by decide, normalize_idem_of_no_cr _ (by decide)⟩

end KB
